import Mathlib

/-!
Shallow embedding of the WhisperScribe transcription-cleaning core
(`cleanRepetitiveText`, `findLongestRepetitivePattern`, `detectHallucination`),
the structured response parsers (`parseGeneralResponse`, `parseClaudeResponse`)
and the tag formatter (`formatTagsAsObsidianTags`), together with theorems
settling the frozen claims about them.

Conventions of the embedding:
* JS strings are Lean `String`s; most work happens on `List Char` / token lists.
* `text.trim().split(/\s+/)` is modelled by `tokenize`, which splits on runs of
  whitespace and drops empty pieces (the two are equal once the leading check
  "empty or whitespace-only" has been taken).
* `String.prototype.toLowerCase` is modelled by `jsToLower`, the ASCII
  lowercasing map (the inputs the claims quantify over are ASCII).
* JS numbers used as counters are `Nat`; the two float comparisons in
  `detectHallucination` (`uniqueRatio < threshold`, `repetitiveScore > 0.5`)
  are modelled over `ℚ` with the exact constants 3/10 and 1/2.
* loops that advance a cursor by a data-dependent step are written with an
  explicit fuel argument so that every definition is a structural recursion
  the kernel can evaluate; the fuel passed is always an upper bound on the
  number of iterations the JS loop performs.
-/

namespace WhisperScribe

/-- A token: one whitespace-delimited word, as a list of characters. -/
abbrev Tok := List Char

/-- The characters matched by the JS regexp class `\s` (ASCII part). -/
def isWsChar (c : Char) : Bool :=
  c = ' ' || c = '\t' || c = '\n' || c = '\r' || c = '\x0b' || c = '\x0c'

/-- `String.prototype.toLowerCase`, restricted to ASCII: maps `A`–`Z`
(codes 65–90) to `a`–`z` (codes 97–122) and leaves everything else alone. -/
def jsToLower (c : Char) : Char :=
  if h : 65 ≤ c.toNat ∧ c.toNat ≤ 90 then
    Char.ofNatAux (c.toNat + 32) (Or.inl (by omega))
  else c

/-- Lowercase every character of a token (`w.toLowerCase()`). -/
def lowerTok (t : Tok) : Tok := t.map jsToLower

/-- Tokenizer worker: `acc` is the word currently being read, reversed.
Models splitting on `/\s+/` with empty pieces dropped. -/
def tokAux : List Char → List Char → List Tok
  | [], acc => if acc = [] then [] else [acc.reverse]
  | c :: cs, acc =>
    if isWsChar c then
      (if acc = [] then tokAux cs [] else acc.reverse :: tokAux cs [])
    else tokAux cs (c :: acc)

/-- Split a character list into whitespace-separated tokens. -/
def tokenizeChars (l : List Char) : List Tok := tokAux l []

/-- `text.trim().split(/\s+/)` for a non-blank `text`. -/
def tokenize (s : String) : List Tok := tokenizeChars s.data

/-- Join tokens with single spaces, as the JS `Array.prototype` join with
a space separator does. -/
def joinSp : List Tok → List Char
  | [] => []
  | [t] => t
  | t :: ts => t ++ ' ' :: joinSp ts

/-- `String.prototype.trim` on a character list. -/
def trimChars (l : List Char) : List Char :=
  ((l.dropWhile isWsChar).reverse.dropWhile isWsChar).reverse

/-- Whitespace normalization to single spaces: the result of tokenizing a
string and joining the tokens back with single spaces. -/
def normalizeWs (s : String) : String := String.mk (joinSp (tokenize s))

/-! ## Repetition scanner (`findLongestRepetitivePattern`) -/

/-- The comparison key of a candidate pattern:
the lowercased tokens joined with single spaces
(`pattern.map(w => w.toLowerCase())` joined with a space). -/
def patKey (p : List Tok) : List Char := joinSp (p.map lowerTok)

/-- The scanner's inner `while` loop: starting on `rest`, count how many
further consecutive copies of the pattern with key `key` and length `L`
appear (`while (pos + patternLen <= words.length) ...`).  The fuel is an
upper bound on the iteration count; each successful iteration consumes
`L ≥ 1` tokens, so `rest.length` is always enough. -/
def chainF : Nat → List Char → Nat → List Tok → Nat
  | 0, _, _, _ => 0
  | fuel + 1, key, L, rest =>
    if 0 < L ∧ L ≤ rest.length ∧ patKey (rest.take L) = key then
      chainF fuel key L (rest.drop L) + 1
    else 0

/-- Repetitions of the length-`L` pattern starting at index `i` of `ws`:
the occurrence at `i` itself (`let repetitions = 1`) plus the consecutive
copies counted by the `while` loop. -/
def countReps (ws : List Tok) (i L : Nat) : Nat :=
  1 + chainF ws.length (patKey ((ws.drop i).take L)) L (ws.drop (i + L))

/-- The candidate `(patternLength, repetitions)` pairs inspected by the
scanner's `for` loop, in ascending order of length
(`for patternLen = 1 to Math.min(10, words.length - startIndex)`). -/
def scanCands (ws : List Tok) (i : Nat) : List (Nat × Nat) :=
  (List.range' 1 (min 10 (ws.length - i))).map (fun L => (L, countReps ws i L))

/-- The scanner's best-match update: replace the current best when the
candidate has strictly more repetitions, or equally many with a strictly
greater pattern length. -/
def bestStep (best c : Nat × Nat) : Nat × Nat :=
  if best.2 < c.2 ∨ (c.2 = best.2 ∧ best.1 < c.1) then c else best

/-- `findLongestRepetitivePattern(words, startIndex)`; the source function
also receives a `maxRepetitions` argument that its body never uses, so it is
omitted here.  Returns `(patternLength, repetitions)`, initially `(0, 0)`. -/
def findLongestRepetitivePattern (ws : List Tok) (i : Nat) : Nat × Nat :=
  (scanCands ws i).foldl bestStep (0, 0)

/-! ## Transcription cleaner (`cleanRepetitiveText`) -/

/-- The literal marker pushed after a truncated repetition. -/
def MARKER : Tok := "[repetitive pattern truncated]".data

/-- `pattern` pushed `k` times (`for rep = 0; rep < maxRepetitions; rep++`). -/
def repApp : Nat → List Tok → List Tok
  | 0, _ => []
  | k + 1, p => p ++ repApp k p

/-- The cleaner's cursor loop (`while (i < words.length)`), with fuel.
Each iteration advances the cursor by at least one token, so fuel
`ws.length - i` (and a fortiori `ws.length`) suffices. -/
def cleanLoopF : Nat → List Tok → Nat → Nat → List Tok
  | 0, _, _, _ => []
  | fuel + 1, ws, k, i =>
    if h : i < ws.length then
      if 0 < (findLongestRepetitivePattern ws i).1 ∧
          k < (findLongestRepetitivePattern ws i).2 then
        repApp k ((ws.drop i).take (findLongestRepetitivePattern ws i).1) ++
          MARKER :: cleanLoopF fuel ws k
            (i + (findLongestRepetitivePattern ws i).1 *
              (findLongestRepetitivePattern ws i).2)
      else
        ws.get ⟨i, h⟩ :: cleanLoopF fuel ws k (i + 1)
    else []

/-- The cleaned token stream produced from token list `ws` with cap `k`. -/
def cleanTokens (ws : List Tok) (k : Nat) : List Tok :=
  cleanLoopF ws.length ws k 0

/-- `cleanRepetitiveText(text, maxRepetitions)`.  The leading guard
`!text || text.trim().length === 0` is exactly "every character of the
string is whitespace". -/
def cleanRepetitiveText (s : String) (k : Nat) : String :=
  if s.data.all isWsChar then s
  else String.mk (joinSp (cleanTokens (tokenize s) k))

/-! ## Hallucination detector (`detectHallucination`) -/

/-- `uniqueWords.size / words.length` where
`uniqueWords = new Set(words.map(w => w.toLowerCase()))`. -/
def uniqWordFrac (ws : List Tok) : ℚ :=
  (((ws.map lowerTok).dedup.length : ℚ)) / ((ws.length : ℚ))

/-- `calculateRepetitiveScore`'s cursor loop, accumulating the count of words
lying in patterns that repeat more than twice; fuel as in `cleanLoopF`.
(The source calls the scanner with its unused `maxRepetitions` argument set
to 2 here.) -/
def repWordsF : Nat → List Tok → Nat → Nat
  | 0, _, _ => 0
  | fuel + 1, ws, i =>
    if i < ws.length then
      if 2 < (findLongestRepetitivePattern ws i).2 then
        (findLongestRepetitivePattern ws i).1 * (findLongestRepetitivePattern ws i).2 +
          repWordsF fuel ws
            (i + (findLongestRepetitivePattern ws i).1 *
              (findLongestRepetitivePattern ws i).2)
      else repWordsF fuel ws (i + 1)
    else 0

/-- `calculateRepetitiveScore(words)` = repetitiveWords / totalWords. -/
def repetitiveScore (ws : List Tok) : ℚ :=
  ((repWordsF ws.length ws 0 : ℚ)) / ((ws.length : ℚ))

/-- `findMaxConsecutivePatternRepetitions(words)`: for every start index the
source's inner `for patternLen` loop calls `findLongestRepetitivePattern`
with arguments that do not depend on `patternLen`, so the function is the
maximum over all start indices of the scanner's repetition count. -/
def maxConsecReps (ws : List Tok) : Nat :=
  (List.range ws.length).foldl
    (fun m i => max m (findLongestRepetitivePattern ws i).2) 0

/-- `detectHallucination(text, threshold)`: three signals with early return.
The float constants 0.3 (default threshold, supplied by callers) and 0.5 are
modelled as the rationals 3/10 and 1/2. -/
def detectHallucination (s : String) (threshold : ℚ) : Bool :=
  if s.data.all isWsChar then false
  else if (tokenize s).length < 10 then false
  else if uniqWordFrac (tokenize s) < threshold then true
  else if (1 / 2 : ℚ) < repetitiveScore (tokenize s) then true
  else if 8 < maxConsecReps (tokenize s) then true
  else false

/-! ## Structured response parsers -/

/-- Case-insensitive character comparison (the regexes carry the `i` flag). -/
def ciEqChar (a b : Char) : Bool := jsToLower a = jsToLower b

/-- Does `l` start with `pat`, case-insensitively? -/
def startsWithCI : List Char → List Char → Bool
  | [], _ => true
  | _ :: _, [] => false
  | p :: ps, c :: cs => ciEqChar p c && startsWithCI ps cs

/-- Index of the leftmost case-insensitive occurrence of `pat` in the text.
For the regexes modelled here (`HEADER:\s*([\s\S]*?)(?=…|$)`) the tail of the
pattern can always match, so the JS match position is exactly the leftmost
occurrence of the literal header. -/
def findCIFrom (pat : List Char) : List Char → Option Nat
  | [] => if startsWithCI pat [] then some 0 else none
  | c :: cs =>
    if startsWithCI pat (c :: cs) then some 0
    else (findCIFrom pat cs).map (· + 1)

/-- Does one of the stop patterns (each includes its leading newline(s))
match, case-insensitively, at the head of `l`?  This is the lookahead
`(?=\n\n(?:SUMMARY|TAGS|DIAGRAM):|$)` with `$` handled by `scanStop`. -/
def stopsAt (stops : List (List Char)) (l : List Char) : Bool :=
  stops.any (fun st => startsWithCI st l)

/-- The lazy group `([\s\S]*?)`: the shortest prefix of `l` after which a
stop pattern matches, or all of `l` when none ever does (`$`). -/
def scanStop (stops : List (List Char)) : List Char → List Char
  | [] => []
  | c :: cs => if stopsAt stops (c :: cs) then [] else c :: scanStop stops cs

/-- The capture group of `HEADER:\s*([\s\S]*?)(?=STOPS|$)` applied to `text`:
find the leftmost occurrence of the header, let the greedy `\s*` consume the
maximal whitespace run after it, then take characters up to the first stop.
(The greedy `\s*` branch is the one the JS engine commits to, because a full
match always completes down that path thanks to the `$` alternative.) -/
def matchSection (header : List Char) (stops : List (List Char))
    (text : List Char) : Option (List Char) :=
  match findCIFrom header text with
  | none => none
  | some idx =>
    some (scanStop stops ((text.drop (idx + header.length)).dropWhile isWsChar))

/-- `tagsText.split(/[,\n]/)`: split at every comma or newline, keeping
empty pieces (they are discarded later by the length filter). -/
def splitCommaNl : List Char → List (List Char)
  | [] => [[]]
  | c :: cs =>
    if c = ',' ∨ c = '\n' then [] :: splitCommaNl cs
    else
      match splitCommaNl cs with
      | [] => [[c]]
      | h :: t => (c :: h) :: t

/-- `.replace(/^[-*•]\s*/, '')`: strip one leading bullet character and the
whitespace run after it (`•` is U+2022). -/
def dropBullet (l : List Char) : List Char :=
  match l with
  | c :: cs =>
    if c = '-' ∨ c = '*' ∨ c = Char.ofNat 8226 then cs.dropWhile isWsChar else l
  | [] => l

/-- `.replace(/^#/, '')`: strip one leading hash. -/
def dropHash (l : List Char) : List Char :=
  match l with
  | c :: cs => if c = '#' then cs else l
  | [] => l

/-- The candidate tags of a TAGS section, before the cap and the Obsidian
normalization: split on commas/newlines, trim each piece, strip a leading
bullet and a leading `#`, and drop pieces that became empty. -/
def strippedCands (content : List Char) : List (List Char) :=
  ((splitCommaNl (trimChars content)).map
    (fun p => dropHash (dropBullet (trimChars p)))).filter (· ≠ [])

/-- The character codes removed by `formatTagsAsObsidianTags`'s punctuation
blacklist `[.&@$%^*+=<>?!|\\"`';{}[\]()~]` (codes given numerically). -/
def punctCodes : List Nat :=
  [46, 38, 64, 36, 37, 94, 42, 43, 61, 60, 62, 63, 33, 124, 92, 34, 96, 39,
   59, 123, 125, 91, 93, 40, 41, 126]

/-- Membership in the punctuation blacklist. -/
def isPunct (c : Char) : Bool := punctCodes.contains c.toNat

/-- `.replace(/\s+/g, '-')`: every maximal whitespace run becomes one `-`. -/
def wsRunsToHyphen : List Char → List Char
  | [] => []
  | [c] => if isWsChar c then ['-'] else [c]
  | a :: b :: r =>
    if isWsChar a then
      (if isWsChar b then wsRunsToHyphen (b :: r) else '-' :: wsRunsToHyphen (b :: r))
    else a :: wsRunsToHyphen (b :: r)

/-- The replace that collapses every run of hyphens to a single hyphen. -/
def collapseHyphens : List Char → List Char
  | [] => []
  | [c] => [c]
  | a :: b :: r =>
    if a = '-' ∧ b = '-' then collapseHyphens (b :: r)
    else a :: collapseHyphens (b :: r)

/-- `.replace(/^-|-$/g, '')`: remove one leading and one trailing hyphen. -/
def stripEdgeHyphens (l : List Char) : List Char :=
  let a := if l.head? = some '-' then l.tail else l
  if a.getLast? = some '-' then a.dropLast else a

/-- Normalization of a single tag inside `formatTagsAsObsidianTags`:
lowercase, drop blacklisted punctuation, whitespace runs to hyphens,
collapse hyphens, strip edge hyphens, trim. -/
def formatTag (t : List Char) : List Char :=
  trimChars (stripEdgeHyphens (collapseHyphens (wsRunsToHyphen
    ((t.map jsToLower).filter (fun c => !(isPunct c))))))

/-- `formatTagsAsObsidianTags(tags)` (src/utils/formatters.ts): normalize
every tag and drop the ones that became empty. -/
def formatTagsAsObsidianTags (tags : List (List Char)) : List (List Char) :=
  (tags.map formatTag).filter (· ≠ [])

/-- The tag pipeline applied to a TAGS section's raw content: candidates,
capped at 5, then Obsidian-normalized. -/
def parseTags (content : List Char) : List String :=
  (formatTagsAsObsidianTags ((strippedCands content).take 5)).map String.mk

/-- `.replace(/^```mermaid\s*/i, '').replace(/```\s*$/, '').trim()` applied
to the already-trimmed DIAGRAM content. -/
def stripFence (l : List Char) : List Char :=
  let a := if startsWithCI ("```mermaid".data) l then (l.drop 10).dropWhile isWsChar else l
  let b := if a.reverse.take 3 = ['`', '`', '`'] then (a.reverse.drop 3).reverse else a
  trimChars b

/-- Result record of `parseGeneralResponse`. -/
structure GeneralParsed where
  transcription : String
  summary : Option String
  tags : Option (List String)
  diagram : Option String
deriving DecidableEq, Repr

/-- The four header literals and the stop patterns of the general parser's
regexes; every stop carries the two newlines required by the lookahead
`(?=\n\n(?:…):|$)`. -/
def hdrTRANSCRIPTION : List Char := "TRANSCRIPTION:".data

/-- Stops of the TRANSCRIPTION regex. -/
def stopsTrans : List (List Char) :=
  ["\n\nSUMMARY:".data, "\n\nTAGS:".data, "\n\nDIAGRAM:".data]

/-- Stops of the SUMMARY regex of the general parser. -/
def stopsSummary : List (List Char) := ["\n\nTAGS:".data, "\n\nDIAGRAM:".data]

/-- Stops of the TAGS regex of the general parser. -/
def stopsTags : List (List Char) := ["\n\nDIAGRAM:".data]

/-- The four header/stop-set pairs of the general parser's regexes, one per
recognized section.  Each section's lookahead names only the headers that
come later in the fixed order TRANSCRIPTION, SUMMARY, TAGS, DIAGRAM —
in particular the DIAGRAM regex has no stops and always captures to the end
of the text. -/
def sectionRegexes : List (List Char × List (List Char)) :=
  [(("TRANSCRIPTION:".data), ["\n\nSUMMARY:".data, "\n\nTAGS:".data, "\n\nDIAGRAM:".data]),
   (("SUMMARY:".data), ["\n\nTAGS:".data, "\n\nDIAGRAM:".data]),
   (("TAGS:".data), ["\n\nDIAGRAM:".data]),
   (("DIAGRAM:".data), [])]

/-- `parseGeneralResponse(responseText, includeFeatures)`.  The JS
`transcriptionMatch?.[1]?.trim() || responseText` makes both a missing
match and an empty trimmed group fall back to the whole input. -/
def parseGeneralResponse (responseText : String) (includeFeatures : Bool) :
    GeneralParsed :=
  if !includeFeatures then ⟨responseText, none, none, none⟩
  else
    let txt := responseText.data
    let transcription :=
      match matchSection hdrTRANSCRIPTION stopsTrans txt with
      | some c => if trimChars c = [] then responseText else String.mk (trimChars c)
      | none => responseText
    let summary :=
      (matchSection ("SUMMARY:".data) stopsSummary txt).map
        (fun c => String.mk (trimChars c))
    let tags := (matchSection ("TAGS:".data) stopsTags txt).map parseTags
    let diagram :=
      (matchSection ("DIAGRAM:".data) [] txt).map
        (fun c => String.mk (stripFence (trimChars c)))
    ⟨transcription, summary, tags, diagram⟩

/-- Result record of `parseClaudeResponse`. -/
structure ClaudeParsed where
  summary : Option String
  tags : Option (List String)
  diagram : Option String
deriving DecidableEq, Repr

/-- `parseClaudeResponse(response)`: same shape as the general parser but
its lookaheads require only a single newline before the next header. -/
def parseClaudeResponse (response : String) : ClaudeParsed :=
  let txt := response.data
  let summary :=
    (matchSection ("SUMMARY:".data) ["\nTAGS:".data, "\nDIAGRAM:".data] txt).map
      (fun c => String.mk (trimChars c))
  let tags := (matchSection ("TAGS:".data) ["\nDIAGRAM:".data] txt).map parseTags
  let diagram :=
    (matchSection ("DIAGRAM:".data) [] txt).map
      (fun c => String.mk (stripFence (trimChars c)))
  ⟨summary, tags, diagram⟩

/-! ## Tokenizer lemmas -/

/-- Splitting distributes over a space: the word being accumulated is flushed
at the space, and scanning resumes with an empty accumulator. -/
theorem tokAux_append_sp (x y : List Char) :
    ∀ acc, tokAux (x ++ ' ' :: y) acc = tokAux x acc ++ tokAux y [] := by
  induction x with
  | nil =>
    intro acc
    by_cases h : acc = [] <;> simp [tokAux, h, isWsChar]
  | cons c cs ih =>
    intro acc
    by_cases hc : isWsChar c
    · by_cases h : acc = [] <;> simp [tokAux, hc, h, ih]
    · simp [tokAux, hc, ih]

/-- A nonempty run of non-whitespace characters is one token (with the
pending accumulator prepended). -/
theorem tokAux_nonws (t : List Char) (ht : ∀ c ∈ t, isWsChar c = false) :
    ∀ acc, acc ≠ [] ∨ t ≠ [] → tokAux t acc = [acc.reverse ++ t] := by
  induction t with
  | nil =>
    intro acc hne
    rcases hne with h | h
    · simp [tokAux, h]
    · exact absurd rfl h
  | cons c cs ih =>
    intro acc _
    have hc : isWsChar c = false := ht c (List.mem_cons_self _ _)
    have hcs : ∀ d ∈ cs, isWsChar d = false := fun d hd => ht d (List.mem_cons_of_mem _ hd)
    have := ih hcs (c :: acc) (Or.inl (by simp))
    simp [tokAux, hc, this]

/-- A whitespace-free nonempty character list tokenizes to itself alone. -/
theorem tokenizeChars_single (t : List Char) (h0 : t ≠ [])
    (ht : ∀ c ∈ t, isWsChar c = false) : tokenizeChars t = [t] := by
  simpa [tokenizeChars] using tokAux_nonws t ht [] (Or.inr h0)

/-- Every token produced by the tokenizer is nonempty and whitespace-free. -/
theorem mem_tokAux : ∀ (l acc t : List Char),
    (∀ c ∈ acc, isWsChar c = false) → t ∈ tokAux l acc →
    t ≠ [] ∧ ∀ c ∈ t, isWsChar c = false := by
  intro l
  induction l with
  | nil =>
    intro acc t hacc hmem
    by_cases h : acc = [] <;> simp [tokAux, h] at hmem
    subst hmem
    refine ⟨by simpa using h, ?_⟩
    intro c hc
    exact hacc c (by simpa using hc)
  | cons c cs ih =>
    intro acc t hacc hmem
    by_cases hc : isWsChar c
    · by_cases h : acc = []
      · exact ih [] t (by simp) (by simpa [tokAux, hc, h] using hmem)
      · rw [tokAux] at hmem
        simp only [hc, if_true, h, if_false] at hmem
        rcases List.mem_cons.mp hmem with rfl | hmem
        · refine ⟨by simpa using h, ?_⟩
          intro d hd
          exact hacc d (by simpa using hd)
        · exact ih [] t (by simp) hmem
    · refine ih (c :: acc) t ?_ (by simpa [tokAux, hc] using hmem)
      intro d hd
      rcases List.mem_cons.mp hd with rfl | hd
      · simpa using hc
      · exact hacc d hd

/-- Every token of `tokenizeChars l` is nonempty and whitespace-free. -/
theorem mem_tokenizeChars {l t : List Char} (h : t ∈ tokenizeChars l) :
    t ≠ [] ∧ ∀ c ∈ t, isWsChar c = false :=
  mem_tokAux l [] t (by simp) h

/-- The tokenizer returns something as soon as one character is not
whitespace (or a word is pending). -/
theorem tokAux_ne_nil : ∀ (l acc : List Char),
    acc ≠ [] ∨ (∃ c ∈ l, isWsChar c = false) → tokAux l acc ≠ [] := by
  intro l
  induction l with
  | nil =>
    intro acc h
    rcases h with h | ⟨c, hc, _⟩
    · simp [tokAux, h]
    · exact absurd hc (List.not_mem_nil c)
  | cons c cs ih =>
    intro acc h
    by_cases hc : isWsChar c
    · have hcs : acc ≠ [] ∨ ∃ d ∈ cs, isWsChar d = false := by
        rcases h with h | ⟨d, hd, hdf⟩
        · exact Or.inl h
        · rcases List.mem_cons.mp hd with rfl | hd
          · exact absurd hc (by simp [hdf])
          · exact Or.inr ⟨d, hd, hdf⟩
      by_cases ha : acc = []
      · rcases hcs with h' | h'
        · exact absurd ha h'
        · simpa [tokAux, hc, ha] using ih [] (Or.inr h')
      · simp [tokAux, hc, ha]
    · simpa [tokAux, hc] using ih (c :: acc) (Or.inl (by simp))

/-- An all-whitespace character list tokenizes to nothing. -/
theorem tokenizeChars_eq_nil {l : List Char} (h : ∀ c ∈ l, isWsChar c = true) :
    tokenizeChars l = [] := by
  unfold tokenizeChars
  induction l with
  | nil => simp [tokAux]
  | cons c cs ih =>
    have hc := h c (List.mem_cons_self _ _)
    simp [tokAux, hc, ih fun d hd => h d (List.mem_cons_of_mem _ hd)]

/-- Tokenizing a space-joined list of pieces tokenizes every piece. -/
theorem tokenizeChars_joinSp : ∀ ts : List Tok,
    tokenizeChars (joinSp ts) = (ts.map tokenizeChars).flatten := by
  intro ts
  induction ts with
  | nil => simp [joinSp, tokenizeChars, tokAux]
  | cons t ts ih =>
    cases ts with
    | nil => simp [joinSp]
    | cons u us =>
      show tokenizeChars (t ++ ' ' :: joinSp (u :: us)) = _
      unfold tokenizeChars at *
      rw [tokAux_append_sp t (joinSp (u :: us)) [], ih]
      simp [List.flatten]

/-- Joining two nonempty token lists concatenates them around a space. -/
theorem joinSp_append (a b : List Tok) (ha : a ≠ []) (hb : b ≠ []) :
    joinSp (a ++ b) = joinSp a ++ ' ' :: joinSp b := by
  induction a with
  | nil => exact absurd rfl ha
  | cons t ts ih =>
    cases ts with
    | nil =>
      cases b with
      | nil => exact absurd rfl hb
      | cons u us => simp [joinSp]
    | cons v vs =>
      have := ih (by simp)
      simp only [List.cons_append] at this ⊢
      show joinSp (t :: ((v :: vs) ++ b)) = _
      have hne : (v :: vs) ++ b ≠ [] := by simp
      rcases List.exists_cons_of_ne_nil hne with ⟨w, ws, hw⟩
      simp [joinSp, hw, ← hw, this]

/-- Re-joining the tokenizations of pieces that each round-trip gives back
the original join. -/
theorem joinSp_join_tokenize : ∀ ts : List Tok,
    (∀ t ∈ ts, tokenizeChars t ≠ [] ∧ joinSp (tokenizeChars t) = t) →
    joinSp ((ts.map tokenizeChars).flatten) = joinSp ts := by
  intro ts
  induction ts with
  | nil => simp
  | cons t us ih =>
    intro h
    have ht := h t (List.mem_cons_self _ _)
    have hus := fun u hu => h u (List.mem_cons_of_mem _ hu)
    cases us with
    | nil => simp [joinSp, ht.2]
    | cons v vs =>
      have hv := h v (by simp)
      have hjoin_ne : ((v :: vs).map tokenizeChars).flatten ≠ [] := by
        simp only [List.map_cons, List.flatten]
        intro hcontra
        rcases List.append_eq_nil.mp hcontra with ⟨h1, _⟩
        exact hv.1 h1
      show joinSp (tokenizeChars t ++ ((v :: vs).map tokenizeChars).flatten) = _
      rw [joinSp_append _ _ ht.1 hjoin_ne, ih hus, ht.2]
      have : (v :: vs : List Tok) ≠ [] := by simp
      rw [show (t :: v :: vs : List Tok) = [t] ++ (v :: vs) from rfl,
        joinSp_append [t] (v :: vs) (by simp) this]
      simp [joinSp]

/-- A character of a piece appears in the space-join of the pieces. -/
theorem mem_joinSp {c : Char} : ∀ {ts : List Tok} {t : Tok},
    t ∈ ts → c ∈ t → c ∈ joinSp ts := by
  intro ts
  induction ts with
  | nil => intro t h; exact absurd h (List.not_mem_nil t)
  | cons u us ih =>
    intro t ht hc
    rcases List.mem_cons.mp ht with rfl | ht
    · cases us with
      | nil => simpa [joinSp] using hc
      | cons v vs => simp [joinSp, hc]
    · cases us with
      | nil => exact absurd ht (List.not_mem_nil t)
      | cons v vs => simp [joinSp, ih ht hc]

/-! ## Scanner lemmas -/

/-- The order in which the scanner ranks candidates: fewer repetitions lose,
and at equal repetitions a shorter pattern loses. -/
def lexLE (a b : Nat × Nat) : Prop := a.2 < b.2 ∨ (a.2 = b.2 ∧ a.1 ≤ b.1)

theorem lexLE_refl (a : Nat × Nat) : lexLE a a := Or.inr ⟨rfl, le_refl _⟩

theorem lexLE_trans {a b c : Nat × Nat} (h1 : lexLE a b) (h2 : lexLE b c) :
    lexLE a c := by
  unfold lexLE at *
  omega

theorem lexLE_bestStep_left (a c : Nat × Nat) : lexLE a (bestStep a c) := by
  unfold bestStep
  split
  · unfold lexLE
    omega
  · exact lexLE_refl a

theorem lexLE_bestStep_right (a c : Nat × Nat) : lexLE c (bestStep a c) := by
  unfold bestStep
  split
  · exact lexLE_refl c
  · rename_i h
    unfold lexLE
    omega

theorem bestStep_cases (a c : Nat × Nat) : bestStep a c = a ∨ bestStep a c = c := by
  unfold bestStep
  split
  · exact Or.inr rfl
  · exact Or.inl rfl

/-- The running best only grows along the fold. -/
theorem lexLE_foldl_init : ∀ (cs : List (Nat × Nat)) (init : Nat × Nat),
    lexLE init (cs.foldl bestStep init) := by
  intro cs
  induction cs with
  | nil => intro init; exact lexLE_refl init
  | cons c cs ih =>
    intro init
    exact lexLE_trans (lexLE_bestStep_left init c) (ih (bestStep init c))

/-- Every inspected candidate is dominated by the final best. -/
theorem lexLE_foldl_mem : ∀ (cs : List (Nat × Nat)) (init c : Nat × Nat),
    c ∈ cs → lexLE c (cs.foldl bestStep init) := by
  intro cs
  induction cs with
  | nil => intro init c h; exact absurd h (List.not_mem_nil c)
  | cons d cs ih =>
    intro init c h
    rcases List.mem_cons.mp h with rfl | h
    · exact lexLE_trans (lexLE_bestStep_right init c) (lexLE_foldl_init cs _)
    · exact ih (bestStep init d) c h

/-- The final best is the initial value or one of the candidates. -/
theorem foldl_bestStep_mem : ∀ (cs : List (Nat × Nat)) (init : Nat × Nat),
    cs.foldl bestStep init = init ∨ cs.foldl bestStep init ∈ cs := by
  intro cs
  induction cs with
  | nil => intro init; exact Or.inl rfl
  | cons d cs ih =>
    intro init
    rcases ih (bestStep init d) with h | h
    · rcases bestStep_cases init d with h' | h'
      · exact Or.inl (by rw [List.foldl_cons, h, h'])
      · refine Or.inr ?_
        rw [List.foldl_cons, h, h']
        exact List.mem_cons_self _ _
    · refine Or.inr (List.mem_cons_of_mem _ ?_)
      rw [List.foldl_cons]
      exact h

/-- Each repetition count is at least 1 (the occurrence at the cursor). -/
theorem countReps_pos (ws : List Tok) (i L : Nat) : 1 ≤ countReps ws i L :=
  Nat.le_add_right 1 _

/-- Membership in the candidate list of the scanner. -/
theorem mem_scanCands {ws : List Tok} {i : Nat} {c : Nat × Nat} :
    c ∈ scanCands ws i ↔
      1 ≤ c.1 ∧ c.1 ≤ min 10 (ws.length - i) ∧ c = (c.1, countReps ws i c.1) := by
  unfold scanCands
  constructor
  · intro h
    rcases List.mem_map.mp h with ⟨L, hL, rfl⟩
    rcases List.mem_range'.mp hL with ⟨j, hj, rfl⟩
    exact ⟨by omega, by omega, rfl⟩
  · rintro ⟨h1, h2, hc⟩
    refine List.mem_map.mpr ⟨c.1, List.mem_range'.mpr ⟨c.1 - 1, by omega, by omega⟩, hc.symm⟩

/-- With no tokens after the start index there are no candidates and the
scanner returns `(0, 0)`. -/
theorem findLongest_out_of_range {ws : List Tok} {i : Nat} (h : ws.length ≤ i) :
    findLongestRepetitivePattern ws i = (0, 0) := by
  unfold findLongestRepetitivePattern scanCands
  rw [Nat.sub_eq_zero_of_le h]
  rfl

/-- With at least one remaining token, the scanner's answer is one of the
candidates (and so honestly reports some length/count pair). -/
theorem findLongest_mem {ws : List Tok} {i : Nat} (h : i < ws.length) :
    findLongestRepetitivePattern ws i ∈ scanCands ws i := by
  rcases foldl_bestStep_mem (scanCands ws i) (0, 0) with h0 | hmem
  · exfalso
    have hc1 : ((1 : Nat), countReps ws i 1) ∈ scanCands ws i :=
      mem_scanCands.mpr ⟨le_refl 1, by omega, rfl⟩
    have hdom := lexLE_foldl_mem (scanCands ws i) (0, 0) _ hc1
    rw [h0] at hdom
    have := countReps_pos ws i 1
    unfold lexLE at hdom
    omega
  · exact hmem

/-- The scanner's answer dominates every candidate. -/
theorem findLongest_max {ws : List Tok} {i : Nat} {c : Nat × Nat}
    (hc : c ∈ scanCands ws i) : lexLE c (findLongestRepetitivePattern ws i) :=
  lexLE_foldl_mem (scanCands ws i) (0, 0) c hc

/-- "No pattern of 1–10 tokens repeats more than `k` times consecutively
anywhere in `ws`" (the scanner only ever inspects lengths `1 ≤ L ≤ 10` for
which the whole pattern fits). -/
def noOverCap (ws : List Tok) (k : Nat) : Prop :=
  ∀ i, i < ws.length → ∀ L, L < 11 → 1 ≤ L → i + L ≤ ws.length →
    countReps ws i L ≤ k

instance noOverCap.decidable (ws : List Tok) (k : Nat) :
    Decidable (noOverCap ws k) := by
  unfold noOverCap
  exact Nat.decidableBallLT _ _

/-- Under `noOverCap`, the scanner never reports more than `k` repetitions. -/
theorem findLongest_reps_le {ws : List Tok} {k i : Nat}
    (hcap : noOverCap ws k) (h : i < ws.length) :
    (findLongestRepetitivePattern ws i).2 ≤ k := by
  have hmem := findLongest_mem h
  rcases mem_scanCands.mp hmem with ⟨h1, h2, hc⟩
  have hle : countReps ws i (findLongestRepetitivePattern ws i).1 ≤ k :=
    hcap i h _ (by omega) h1 (by omega)
  conv_lhs => rw [hc]
  exact hle

/-! ## Cleaner lemmas -/

/-- When no pattern anywhere exceeds the cap, the cursor loop copies the
remaining tokens through unchanged. -/
theorem cleanLoopF_passthrough : ∀ (fuel : Nat) (ws : List Tok) (k i : Nat),
    ws.length - i ≤ fuel → noOverCap ws k →
    cleanLoopF fuel ws k i = ws.drop i := by
  intro fuel
  induction fuel with
  | zero =>
    intro ws k i hf _
    have h : ws.length ≤ i := by omega
    rw [cleanLoopF, (List.drop_eq_nil_iff).mpr h]
  | succ fuel ih =>
    intro ws k i hf hcap
    by_cases h : i < ws.length
    · have hb2 := findLongest_reps_le hcap h
      have hcond : ¬(0 < (findLongestRepetitivePattern ws i).1 ∧
          k < (findLongestRepetitivePattern ws i).2) := by omega
      rw [cleanLoopF, dif_pos h, if_neg hcond,
        ih ws k (i + 1) (by omega) hcap,
        List.drop_eq_getElem_cons h, List.get_eq_getElem]
    · rw [cleanLoopF, dif_neg h,
        (List.drop_eq_nil_iff).mpr (by omega)]

/-- If the output of the cursor loop never contains the marker, then no
truncation fired: the output is the untouched remainder of the input, and
every pattern the scanner could see from any remaining position repeats at
most `k` times. -/
theorem cleanLoopF_no_marker : ∀ (fuel : Nat) (ws : List Tok) (k i : Nat),
    ws.length - i ≤ fuel → MARKER ∉ cleanLoopF fuel ws k i →
    cleanLoopF fuel ws k i = ws.drop i ∧
      ∀ j, i ≤ j → j < ws.length → ∀ L, L < 11 → 1 ≤ L → j + L ≤ ws.length →
        countReps ws j L ≤ k := by
  intro fuel
  induction fuel with
  | zero =>
    intro ws k i hf _
    have h : ws.length ≤ i := by omega
    refine ⟨by rw [cleanLoopF, (List.drop_eq_nil_iff).mpr h], ?_⟩
    intro j hij hj
    omega
  | succ fuel ih =>
    intro ws k i hf hnm
    by_cases h : i < ws.length
    · by_cases hcond : 0 < (findLongestRepetitivePattern ws i).1 ∧
          k < (findLongestRepetitivePattern ws i).2
      · exfalso
        apply hnm
        rw [cleanLoopF, dif_pos h, if_pos hcond]
        exact List.mem_append_right _ (List.mem_cons_self _ _)
      · rw [cleanLoopF, dif_pos h, if_neg hcond] at hnm
        have hnm' : MARKER ∉ cleanLoopF fuel ws k (i + 1) := by
          intro hc
          exact hnm (List.mem_cons_of_mem _ hc)
        obtain ⟨heq, hcap⟩ := ih ws k (i + 1) (by omega) hnm'
        have hb2 : (findLongestRepetitivePattern ws i).2 ≤ k := by
          have hmem := findLongest_mem h
          rcases mem_scanCands.mp hmem with ⟨h1, _, _⟩
          omega
        refine ⟨?_, ?_⟩
        · rw [cleanLoopF, dif_pos h, if_neg hcond, heq,
            List.drop_eq_getElem_cons h, List.get_eq_getElem]
        · intro j hij hj L hL10 hL1 hfit
          rcases Nat.eq_or_lt_of_le hij with heq | hij'
          · subst heq
            have hc : (L, countReps ws i L) ∈ scanCands ws i :=
              mem_scanCands.mpr ⟨hL1, by omega, rfl⟩
            have hdom := findLongest_max hc
            unfold lexLE at hdom
            omega
          · exact hcap j (by omega) hj L hL10 hL1 hfit
    · refine ⟨by rw [cleanLoopF, dif_neg h,
        (List.drop_eq_nil_iff).mpr (by omega)], ?_⟩
      intro j hij hj
      omega

/-- Membership in a `k`-fold repetition of a pattern. -/
theorem mem_repApp : ∀ (k : Nat) (p : List Tok) (t : Tok),
    t ∈ repApp k p → t ∈ p := by
  intro k
  induction k with
  | zero => intro p t h; exact absurd h (List.not_mem_nil t)
  | succ k ih =>
    intro p t h
    rcases List.mem_append.mp h with h | h
    · exact h
    · exact ih p t h

/-- Every token emitted by the cursor loop is an input token or the marker. -/
theorem cleanLoopF_mem : ∀ (fuel : Nat) (ws : List Tok) (k i : Nat) (t : Tok),
    t ∈ cleanLoopF fuel ws k i → t ∈ ws ∨ t = MARKER := by
  intro fuel
  induction fuel with
  | zero =>
    intro ws k i t h
    rw [cleanLoopF] at h
    exact absurd h (List.not_mem_nil t)
  | succ fuel ih =>
    intro ws k i t h
    by_cases hi : i < ws.length
    · rw [cleanLoopF, dif_pos hi] at h
      split at h
      · rcases List.mem_append.mp h with h | h
        · have htake := List.mem_of_mem_take (mem_repApp _ _ _ h)
          exact Or.inl (List.mem_of_mem_drop htake)
        · rcases List.mem_cons.mp h with rfl | h
          · exact Or.inr rfl
          · exact ih ws k _ t h
      · rcases List.mem_cons.mp h with rfl | h
        · exact Or.inl (List.get_mem ws _ _)
        · exact ih ws k _ t h
    · rw [cleanLoopF, dif_neg hi] at h
      exact absurd h (List.not_mem_nil t)

/-- While tokens remain, the cursor loop emits at least one token. -/
theorem cleanLoopF_ne_nil (fuel : Nat) (ws : List Tok) (k i : Nat)
    (hi : i < ws.length) (hf : 1 ≤ fuel) : cleanLoopF fuel ws k i ≠ [] := by
  rcases Nat.exists_eq_add_of_le hf with ⟨fuel', rfl⟩
  rw [Nat.add_comm, cleanLoopF, dif_pos hi]
  split
  · simp
  · simp

/-! ## Round-tripping a cleaned token stream through the tokenizer -/

/-- Each piece of a cleaned stream re-tokenizes faithfully: an input token is
one token (it is whitespace-free), and the marker splits into its three words
whose re-join is the marker again. -/
theorem cleaned_piece_roundtrip {ws : List Tok} {t : Tok}
    (hws : ∀ u ∈ ws, u ≠ [] ∧ ∀ c ∈ u, isWsChar c = false)
    (h : t ∈ ws ∨ t = MARKER) :
    tokenizeChars t ≠ [] ∧ joinSp (tokenizeChars t) = t := by
  rcases h with h | rfl
  · obtain ⟨h0, hnws⟩ := hws t h
    rw [tokenizeChars_single t h0 hnws]
    exact ⟨by simp, rfl⟩
  · exact ⟨by decide, by decide⟩

/-- Re-tokenizing the string built from a cleaned stream yields the
concatenation of the tokenizations of its pieces. -/
theorem tokenize_mk_joinSp (out : List Tok) :
    tokenize (String.mk (joinSp out)) = (out.map tokenizeChars).flatten := by
  show tokenizeChars (joinSp out) = _
  exact tokenizeChars_joinSp out

/-- Tokenizations of whitespace-free nonempty tokens concatenate back to
the original token list. -/
theorem flatten_tokenize_canonical : ∀ ts : List Tok,
    (∀ u ∈ ts, u ≠ [] ∧ ∀ c ∈ u, isWsChar c = false) →
    (ts.map tokenizeChars).flatten = ts := by
  intro ts
  induction ts with
  | nil => intro _; simp
  | cons t us ih =>
    intro h
    obtain ⟨h0, hnws⟩ := h t (List.mem_cons_self _ _)
    simp only [List.map_cons, List.flatten_cons,
      tokenizeChars_single t h0 hnws,
      ih fun u hu => h u (List.mem_cons_of_mem _ hu)]
    rfl

/-- A string that is not all-whitespace has at least one token. -/
theorem tokenize_ne_nil_of_not_all_ws {s : String}
    (h : ¬ s.data.all isWsChar = true) : tokenize s ≠ [] := by
  apply tokAux_ne_nil
  refine Or.inr ?_
  rcases List.all_eq_false.mp (Bool.eq_false_iff.mpr h) with ⟨c, hc, hcf⟩
  exact ⟨c, hc, by simpa using hcf⟩

/-- The cleaned output string of a non-blank input is itself non-blank. -/
theorem clean_output_not_all_ws {s : String} {k : Nat}
    (hg : ¬ s.data.all isWsChar = true) :
    (String.mk (joinSp (cleanTokens (tokenize s) k))).data.all isWsChar = false := by
  have hws_ne := tokenize_ne_nil_of_not_all_ws hg
  have hlen : 0 < (tokenize s).length := List.length_pos.mpr hws_ne
  have hout_ne : cleanTokens (tokenize s) k ≠ [] :=
    cleanLoopF_ne_nil _ _ _ _ hlen (by omega)
  rcases List.exists_cons_of_ne_nil hout_ne with ⟨t0, out', hcons⟩
  have ht0 : t0 ∈ cleanTokens (tokenize s) k := by rw [hcons]; simp
  have hm := cleanLoopF_mem _ _ _ _ t0 ht0
  have hchar : ∃ c ∈ joinSp (cleanTokens (tokenize s) k), isWsChar c = false := by
    rcases hm with hin | rfl
    · obtain ⟨h0, hnws⟩ := mem_tokenizeChars hin
      rcases List.exists_cons_of_ne_nil h0 with ⟨c, t0', rfl⟩
      exact ⟨c, mem_joinSp ht0 (List.mem_cons_self _ _),
        hnws c (List.mem_cons_self _ _)⟩
    · exact ⟨'[', mem_joinSp ht0 (by decide), by decide⟩
  rcases hchar with ⟨c, hcm, hcf⟩
  exact List.all_eq_false.mpr ⟨c, hcm, by simp [hcf]⟩

/-- Claim C6.  Non-repetitive passthrough: if no pattern of 1–10 tokens
repeats more than `k` times consecutively anywhere in `T` (case-insensitive),
then `cleanRepetitiveText(T, k)` is `T` up to whitespace normalization to
single spaces — literally `T` when `T` is blank (the guard), and the
single-space re-join of `T`'s tokens otherwise; in particular
`"He said no no no and walked away"` with the default cap 3 is returned
unchanged. -/
theorem claim_C6_nonrepetitive_passthrough :
    (∀ (s : String) (k : Nat), 1 ≤ k → noOverCap (tokenize s) k →
      cleanRepetitiveText s k =
        (if s.data.all isWsChar then s else normalizeWs s)) ∧
    cleanRepetitiveText "He said no no no and walked away" 3 =
      "He said no no no and walked away" := by
  constructor
  · intro s k _ hcap
    by_cases hg : s.data.all isWsChar
    · rw [cleanRepetitiveText, if_pos hg, if_pos hg]
    · rw [cleanRepetitiveText, if_neg hg, if_neg hg]
      unfold cleanTokens normalizeWs
      rw [cleanLoopF_passthrough _ _ _ 0 (by omega) hcap, List.drop_zero]
  · decide

/-- Witness for claim C6: a concrete non-repetitive input satisfying the
hypotheses, on which the theorem evaluates. -/
theorem claim_C6_witness :
    ((1 ≤ 2 ∧ noOverCap (tokenize "x y z") 2) ∧
      cleanRepetitiveText "x y z" 2 =
        (if ("x y z" : String).data.all isWsChar then "x y z"
         else normalizeWs "x y z")) :=
  ⟨⟨by decide, by decide⟩,
    claim_C6_nonrepetitive_passthrough.1 "x y z" 2 (by decide) (by decide)⟩

/-- Claim C1 counterexample: `cleanRepetitiveText` is not idempotent.  On
`T = "a a a a b" × 4` with the default cap `k = 3`, the scanner's tie-break
prefers the 5-token pattern `a a a a b` (4 repetitions) over the single
token `a` (also 4 repetitions); the emitted triple of that pattern contains
an `a`-run of 4 > 3, which the second pass truncates again. -/
theorem claim_C1_counterexample :
    cleanRepetitiveText (cleanRepetitiveText
      "a a a a b a a a a b a a a a b a a a a b" 3) 3 ≠
    cleanRepetitiveText "a a a a b a a a a b a a a a b a a a a b" 3 := by
  decide

/-- Claim C1 (amended): `cleanRepetitiveText(·, k)` is idempotent on every
input whose cleaned output contains no pattern of 1–10 tokens repeating more
than `k` times consecutively; the unconditional claim fails (see the
counterexample, where the cleaned output retains an over-cap run). -/
theorem claim_C1_idempotent_of_no_overcap (s : String) (k : Nat) (_hk : 1 ≤ k)
    (hcap : noOverCap (tokenize (cleanRepetitiveText s k)) k) :
    cleanRepetitiveText (cleanRepetitiveText s k) k = cleanRepetitiveText s k := by
  by_cases hg : s.data.all isWsChar
  · have h1 : cleanRepetitiveText s k = s := by rw [cleanRepetitiveText, if_pos hg]
    rw [h1, h1]
  · have h1 : cleanRepetitiveText s k =
        String.mk (joinSp (cleanTokens (tokenize s) k)) := by
      rw [cleanRepetitiveText, if_neg hg]
    have hmem : ∀ t ∈ cleanTokens (tokenize s) k, t ∈ tokenize s ∨ t = MARKER :=
      fun t ht => cleanLoopF_mem _ _ _ _ t ht
    have hround : ∀ t ∈ cleanTokens (tokenize s) k,
        tokenizeChars t ≠ [] ∧ joinSp (tokenizeChars t) = t :=
      fun t ht => cleaned_piece_roundtrip (fun u hu => mem_tokenizeChars hu)
        (hmem t ht)
    have hguard := clean_output_not_all_ws (s := s) (k := k) hg
    have htokS := tokenize_mk_joinSp (cleanTokens (tokenize s) k)
    have hcap' : noOverCap
        (((cleanTokens (tokenize s) k).map tokenizeChars).flatten) k := by
      rw [h1, htokS] at hcap
      exact hcap
    have hpass : ∀ ws2 : List Tok, noOverCap ws2 k → cleanTokens ws2 k = ws2 := by
      intro ws2 hcap2
      unfold cleanTokens
      rw [cleanLoopF_passthrough _ _ _ 0 (by omega) hcap2, List.drop_zero]
    rw [h1, cleanRepetitiveText, if_neg (by rw [hguard]; simp), htokS,
      hpass _ hcap']
    exact congrArg String.mk (joinSp_join_tokenize _ hround)

/-- Witness for the amended claim C1: a concrete input that does get
truncated and whose cleaned output is below the cap everywhere. -/
theorem claim_C1_amended_witness :
    ((1 ≤ 3 ∧ noOverCap (tokenize (cleanRepetitiveText "a a a a a" 3)) 3) ∧
      cleanRepetitiveText (cleanRepetitiveText "a a a a a" 3) 3 =
        cleanRepetitiveText "a a a a a" 3) :=
  ⟨⟨by decide, by decide⟩,
    claim_C1_idempotent_of_no_overcap "a a a a a" 3 (by decide) (by decide)⟩

/-- Claim C2 counterexample: the cap invariant fails.  Cleaning
`T = "a a a a b" × 4` with `k = 3` yields
`"a a a a b a a a a b a a a a b [repetitive pattern truncated]"`, in which
the single-token pattern `a` has a maximal run of 4 > 3 repetitions starting
at token index 0, and the three tokens following that run (`b a a`) are not
the marker. -/
theorem claim_C2_counterexample :
    cleanRepetitiveText "a a a a b a a a a b a a a a b a a a a b" 3 =
      "a a a a b a a a a b a a a a b [repetitive pattern truncated]" ∧
    countReps (tokenize (cleanRepetitiveText
      "a a a a b a a a a b a a a a b a a a a b" 3)) 0 1 = 4 ∧
    3 < 4 ∧
    ((tokenize (cleanRepetitiveText
      "a a a a b a a a a b a a a a b a a a a b" 3)).drop (1 * 4)).take 3 ≠
      tokenizeChars MARKER := by
  refine ⟨by decide, by decide, by decide, by decide⟩

/-- Claim C2 (amended): when the cleaner performs no truncation — its token
output never contains the marker — the output of `cleanRepetitiveText(T, k)`
contains no pattern of 1–10 tokens repeating more than `k` times
consecutively at any position.  When a truncation does occur, an over-cap
run may survive in the output without being followed by the marker (see the
counterexample). -/
theorem claim_C2_cap_of_no_marker (s : String) (k : Nat) (_hk : 1 ≤ k)
    (hnm : MARKER ∉ cleanTokens (tokenize s) k) :
    noOverCap (tokenize (cleanRepetitiveText s k)) k := by
  by_cases hg : s.data.all isWsChar
  · rw [cleanRepetitiveText, if_pos hg,
      show tokenize s = [] from
        tokenizeChars_eq_nil (List.all_eq_true.mp hg)]
    intro i hi
    simp at hi
  · obtain ⟨heq, hcap⟩ := cleanLoopF_no_marker (tokenize s).length
      (tokenize s) k 0 (by omega) hnm
    have hct : cleanTokens (tokenize s) k = tokenize s := by
      unfold cleanTokens
      rw [heq, List.drop_zero]
    rw [cleanRepetitiveText, if_neg hg, tokenize_mk_joinSp, hct,
      flatten_tokenize_canonical (tokenize s) (fun u hu => mem_tokenizeChars hu)]
    intro i hi L hL10 hL1 hfit
    exact hcap i (Nat.zero_le i) hi L hL10 hL1 hfit

/-- Witness for the amended claim C2: a concrete input the cleaner leaves
untouched, whose output therefore satisfies the cap everywhere. -/
theorem claim_C2_amended_witness :
    ((1 ≤ 3 ∧ MARKER ∉ cleanTokens (tokenize "a a b c") 3) ∧
      noOverCap (tokenize (cleanRepetitiveText "a a b c" 3)) 3) :=
  ⟨⟨by decide, by decide⟩,
    claim_C2_cap_of_no_marker "a a b c" 3 (by decide) (by decide)⟩

/-! ## Claim C3: functional correctness of the scanner -/

/-- Claim C3.  The scanner returns `(0, 0)` when no tokens remain after the
start index; otherwise it returns one of the candidate pairs
`(L, countReps ws i L)` for `L` ranging over `1 … min(10, remaining)` —
`countReps` counting strictly consecutive, non-overlapping, case-insensitive
repetitions — and that pair dominates every candidate: each other candidate
either has strictly fewer repetitions, or equally many and a pattern length
that is no greater.  This pins down exactly the ascending iteration with the
"strictly more repetitions, or tie and strictly longer" replacement rule. -/
theorem claim_C3_scanner_correct : ∀ (ws : List Tok) (i : Nat),
    (ws.length ≤ i → findLongestRepetitivePattern ws i = (0, 0)) ∧
    (i < ws.length →
      findLongestRepetitivePattern ws i ∈ scanCands ws i ∧
      ∀ c ∈ scanCands ws i, lexLE c (findLongestRepetitivePattern ws i)) :=
  fun _ _ =>
    ⟨findLongest_out_of_range,
     fun h => ⟨findLongest_mem h, fun _ hc => findLongest_max hc⟩⟩

/-- Witness for claim C3, at the empty token list and at a concrete list. -/
theorem claim_C3_witness :
    findLongestRepetitivePattern [] 0 = (0, 0) ∧
    findLongestRepetitivePattern (tokenize "go go go stop") 0 ∈
      scanCands (tokenize "go go go stop") 0 :=
  ⟨(claim_C3_scanner_correct [] 0).1 (by decide),
   ((claim_C3_scanner_correct (tokenize "go go go stop") 0).2 (by decide)).1⟩

/-! ## Claims C7 and C8: the hallucination detector -/

/-- `n` copies of a one-element list flatten to `n` copies of the element. -/
theorem flatten_replicate_single (w : Tok) :
    ∀ n : Nat, (List.replicate n ([w] : List Tok)).flatten = List.replicate n w := by
  intro n
  induction n with
  | zero => simp
  | succ n ih => simp [List.replicate_succ, ih]

/-- Deduplicating `n ≥ 1` copies of one value leaves exactly that value. -/
theorem dedup_replicate_single (x : Tok) :
    ∀ n : Nat, 1 ≤ n → (List.replicate n x).dedup = [x] := by
  intro n
  induction n with
  | zero => intro h; omega
  | succ n ih =>
    intro _
    cases n with
    | zero => simp
    | succ m =>
      rw [List.replicate_succ, List.dedup_cons_of_mem (by simp), ih (by omega)]

/-- Claim C7.  For every single whitespace-free token `w` and every
`n ≥ 20`, `detectHallucination` with the default threshold 0.3 returns true
on `w` repeated `n` times joined by spaces: the unique-word ratio is
`1/n < 3/10`, so the first signal fires. -/
theorem claim_C7_repeated_token_true (w : Tok) (n : Nat) (hn : 20 ≤ n)
    (hw0 : w ≠ []) (hwws : ∀ c ∈ w, isWsChar c = false) :
    detectHallucination (String.mk (joinSp (List.replicate n w))) (3 / 10) = true := by
  have htok : tokenize (String.mk (joinSp (List.replicate n w))) =
      List.replicate n w := by
    rw [tokenize_mk_joinSp, List.map_replicate, tokenizeChars_single w hw0 hwws,
      flatten_replicate_single]
  have hguard : (String.mk (joinSp (List.replicate n w))).data.all isWsChar
      = false := by
    rcases List.exists_cons_of_ne_nil hw0 with ⟨c, w', rfl⟩
    have hcw : c ∈ joinSp (List.replicate n (c :: w')) :=
      mem_joinSp (List.mem_replicate.mpr ⟨by omega, rfl⟩) (List.mem_cons_self _ _)
    exact List.all_eq_false.mpr
      ⟨c, hcw, by simp [hwws c (List.mem_cons_self _ _)]⟩
  have hlen : ¬ ((List.replicate n w).length < 10) := by
    rw [List.length_replicate]
    omega
  have hratio : uniqWordFrac (List.replicate n w) < 3 / 10 := by
    unfold uniqWordFrac
    rw [List.map_replicate, dedup_replicate_single _ n (by omega),
      List.length_replicate]
    have hn' : (20 : ℚ) ≤ (n : ℚ) := by exact_mod_cast hn
    have hnpos : (0 : ℚ) < (n : ℚ) := by linarith
    rw [show (([lowerTok w] : List Tok)).length = 1 from rfl]
    rw [div_lt_div_iff₀ hnpos (by norm_num)]
    push_cast
    linarith
  rw [detectHallucination, if_neg (by rw [hguard]; simp), htok, if_neg hlen,
    if_pos hratio]

/-- Witness for claim C7: the spec's `"fa" × 20` scenario. -/
theorem claim_C7_witness :
    ((20 ≤ 20 ∧ ("fa".data : List Char) ≠ [] ∧
        ∀ c ∈ ("fa".data : List Char), isWsChar c = false) ∧
      detectHallucination (String.mk (joinSp (List.replicate 20 "fa".data)))
        (3 / 10) = true) :=
  ⟨⟨by decide, by decide, by decide⟩,
    claim_C7_repeated_token_true "fa".data 20 (by decide) (by decide) (by decide)⟩

/-- Claim C8.  Whatever the threshold, a text whose whitespace tokenization
has fewer than 10 tokens is never flagged: the detector returns false from
its short-text guard (or from the blank guard). -/
theorem claim_C8_short_text_false (s : String) (threshold : ℚ)
    (h : (tokenize s).length < 10) : detectHallucination s threshold = false := by
  by_cases hg : s.data.all isWsChar
  · rw [detectHallucination, if_pos hg]
  · rw [detectHallucination, if_neg hg, if_pos h]

/-- Witness for claim C8 at a 3-token text and threshold 0. -/
theorem claim_C8_witness :
    ((tokenize "one two three").length < 10) ∧
    detectHallucination "one two three" 0 = false :=
  ⟨by decide, claim_C8_short_text_false "one two three" 0 (by decide)⟩

/-! ## Parser lemmas and claims C4 / C9 -/

/-- Characterization of the lazy group: `scanStop stops l` is the prefix of
`l` that ends at the first position where a stop pattern matches (or all of
`l` when none ever matches). -/
theorem scanStop_spec (stops : List (List Char)) : ∀ l : List Char,
    scanStop stops l = l.take (scanStop stops l).length ∧
    (scanStop stops l).length ≤ l.length ∧
    (∀ p, p < (scanStop stops l).length → stopsAt stops (l.drop p) = false) ∧
    ((scanStop stops l).length < l.length →
      stopsAt stops (l.drop (scanStop stops l).length) = true) := by
  intro l
  induction l with
  | nil => simp [scanStop]
  | cons c cs ih =>
    by_cases h : stopsAt stops (c :: cs)
    · refine ⟨?_, ?_, ?_, ?_⟩ <;> simp [scanStop, h]
    · obtain ⟨ih1, ih2, ih3, ih4⟩ := ih
      have hrw : scanStop stops (c :: cs) = c :: scanStop stops cs := by
        rw [scanStop, if_neg h]
      refine ⟨?_, ?_, ?_, ?_⟩
      · rw [hrw, List.length_cons, List.take_succ_cons]
        exact congrArg (c :: ·) ih1
      · rw [hrw]
        simp only [List.length_cons]
        omega
      · intro p hp
        cases p with
        | zero =>
          rw [List.drop_zero]
          exact Bool.eq_false_iff.mpr h
        | succ p =>
          rw [hrw, List.length_cons] at hp
          rw [List.drop_succ_cons]
          exact ih3 p (by omega)
      · intro hlt
        rw [hrw] at hlt ⊢
        simp only [List.length_cons] at hlt ⊢
        rw [List.drop_succ_cons]
        exact ih4 (by omega)

/-- Claim C4 (amended).  For every recognized section — the four
header/stop-set pairs of `sectionRegexes` — when the header occurs (leftmost
case-insensitive occurrence at `idx`), the captured content starts after the
header and the greedy whitespace run, and extends exactly up to the first
position where one of that section's stop patterns matches — a blank line
(two consecutive newlines) followed by a header that comes later in the
fixed order TRANSCRIPTION, SUMMARY, TAGS, DIAGRAM — or to the end of the
text when no such position exists.  A header preceded by a single newline
does not end a section, and neither does a blank-line header outside the
section's stop set (SUMMARY stops only at TAGS/DIAGRAM, TAGS only at
DIAGRAM, DIAGRAM at nothing); see the counterexample for both effects.  The
second half ties each field of `parseGeneralResponse` to its section's
match: transcription with the whole-input fallback, summary trimmed, tags
through the tag pipeline, diagram trimmed and fence-stripped. -/
theorem claim_C4_section_boundary :
    (∀ (s : String) (header : List Char) (stops : List (List Char)) (idx : Nat),
      (header, stops) ∈ sectionRegexes →
      findCIFrom header s.data = some idx →
      matchSection header stops s.data =
        some (scanStop stops
          ((s.data.drop (idx + header.length)).dropWhile isWsChar)) ∧
      scanStop stops ((s.data.drop (idx + header.length)).dropWhile isWsChar) =
        ((s.data.drop (idx + header.length)).dropWhile isWsChar).take
          (scanStop stops
            ((s.data.drop (idx + header.length)).dropWhile isWsChar)).length ∧
      (∀ p, p < (scanStop stops
          ((s.data.drop (idx + header.length)).dropWhile isWsChar)).length →
        stopsAt stops
          (((s.data.drop (idx + header.length)).dropWhile isWsChar).drop p)
          = false) ∧
      ((scanStop stops
          ((s.data.drop (idx + header.length)).dropWhile isWsChar)).length <
        ((s.data.drop (idx + header.length)).dropWhile isWsChar).length →
        stopsAt stops
          (((s.data.drop (idx + header.length)).dropWhile isWsChar).drop
            (scanStop stops
              ((s.data.drop (idx + header.length)).dropWhile isWsChar)).length)
          = true)) ∧
    (∀ s : String,
      (parseGeneralResponse s true).transcription =
        (match matchSection hdrTRANSCRIPTION stopsTrans s.data with
         | some c => if trimChars c = [] then s else String.mk (trimChars c)
         | none => s) ∧
      (parseGeneralResponse s true).summary =
        (matchSection ("SUMMARY:".data) stopsSummary s.data).map
          (fun c => String.mk (trimChars c)) ∧
      (parseGeneralResponse s true).tags =
        (matchSection ("TAGS:".data) stopsTags s.data).map parseTags ∧
      (parseGeneralResponse s true).diagram =
        (matchSection ("DIAGRAM:".data) [] s.data).map
          (fun c => String.mk (stripFence (trimChars c)))) := by
  constructor
  · intro s header stops idx _ hfind
    have hm : matchSection header stops s.data =
        some (scanStop stops
          ((s.data.drop (idx + header.length)).dropWhile isWsChar)) := by
      unfold matchSection
      rw [hfind]
    obtain ⟨h1, _, h3, h4⟩ := scanStop_spec stops
      ((s.data.drop (idx + header.length)).dropWhile isWsChar)
    exact ⟨hm, h1, h3, h4⟩
  · intro s
    exact ⟨rfl, rfl, rfl, rfl⟩

/-- Claim C4 counterexample: the section boundary is not "the next
recognized header".  With a single newline before the next header the
transcription absorbs the following `SUMMARY:` header and its content; and
even a header preceded by a blank line is absorbed when it is outside the
section's stop set — the TAGS section's regex stops only at
`\n\nDIAGRAM:`, so `"TAGS: a\n\nSUMMARY: b"` yields the two tags
`["a", "summary:-b"]` instead of ending the TAGS section at the blank-line
`SUMMARY:` header (which the claim would require, giving `["a"]`). -/
theorem claim_C4_counterexample :
    (parseGeneralResponse "TRANSCRIPTION: hello\nSUMMARY: world" true).transcription =
      "hello\nSUMMARY: world" ∧
    (parseGeneralResponse "TRANSCRIPTION: hello\nSUMMARY: world" true).summary =
      some "world" ∧
    ("hello\nSUMMARY: world" : String) ≠ "hello" ∧
    (parseGeneralResponse "TAGS: a\n\nSUMMARY: b" true).tags =
      some ["a", "summary:-b"] ∧
    (parseGeneralResponse "TAGS: a\n\nSUMMARY: b" true).summary = some "b" ∧
    (some ["a", "summary:-b"] : Option (List String)) ≠ some ["a"] := by
  refine ⟨by decide, by decide, by decide, by decide, by decide, by decide⟩

/-- Witness for the amended claim C4: the boundary characterization applied
to the TRANSCRIPTION section of a blank-line-separated blob, and a field
link instance. -/
theorem claim_C4_witness :
    ((hdrTRANSCRIPTION, stopsTrans) ∈ sectionRegexes ∧
      findCIFrom hdrTRANSCRIPTION ("TRANSCRIPTION: hi\n\nSUMMARY: yo").data
        = some 0) ∧
    matchSection hdrTRANSCRIPTION stopsTrans
        ("TRANSCRIPTION: hi\n\nSUMMARY: yo").data =
      some (scanStop stopsTrans
        ((("TRANSCRIPTION: hi\n\nSUMMARY: yo").data.drop
          (0 + hdrTRANSCRIPTION.length)).dropWhile isWsChar)) ∧
    (parseGeneralResponse "TAGS: x" true).tags =
      (matchSection ("TAGS:".data) stopsTags ("TAGS: x").data).map parseTags :=
  ⟨⟨by decide, by decide⟩,
    (claim_C4_section_boundary.1 "TRANSCRIPTION: hi\n\nSUMMARY: yo"
      hdrTRANSCRIPTION stopsTrans 0 (by decide) (by decide)).1,
    (claim_C4_section_boundary.2 "TAGS: x").2.2.1⟩

/-- Claim C9.  If the `TRANSCRIPTION:` header matches but the captured
content trims to the empty string, the returned transcription is the entire
raw input (the JS `match?.[1]?.trim() || responseText` treats the empty
string as falsy), not the empty string. -/
theorem claim_C9_empty_section_fallback (s : String) (c : List Char)
    (hm : matchSection hdrTRANSCRIPTION stopsTrans s.data = some c)
    (ht : trimChars c = []) :
    (parseGeneralResponse s true).transcription = s := by
  simp [parseGeneralResponse, hm, ht]

/-- Witness for claim C9: an input that is exactly the header. -/
theorem claim_C9_witness :
    (matchSection hdrTRANSCRIPTION stopsTrans ("TRANSCRIPTION:").data = some [] ∧
      trimChars [] = []) ∧
    (parseGeneralResponse "TRANSCRIPTION:" true).transcription = "TRANSCRIPTION:" :=
  ⟨⟨by decide, by decide⟩,
    claim_C9_empty_section_fallback "TRANSCRIPTION:" [] (by decide) (by decide)⟩

/-! ## Tag formatter lemmas and claims C5 / C10 -/

/-- `(Char.ofNatAux n h).toNat` recovers `n`. -/
theorem toNat_ofNatAux (n : Nat) (h : n.isValidChar) :
    (Char.ofNatAux n h).toNat = n := rfl

/-- The ASCII lowercasing map never produces an ASCII uppercase letter. -/
theorem jsToLower_not_upper (c : Char) :
    ¬(65 ≤ (jsToLower c).toNat ∧ (jsToLower c).toNat ≤ 90) := by
  unfold jsToLower
  split
  · rename_i h
    rw [toNat_ofNatAux]
    omega
  · rename_i h
    omega

/-- Every character of the whitespace-to-hyphen replacement is either a
hyphen or a non-whitespace character of the input. -/
theorem wsRuns_chars : ∀ l : List Char, ∀ c ∈ wsRunsToHyphen l,
    c = '-' ∨ (c ∈ l ∧ isWsChar c = false) := by
  intro l
  induction l with
  | nil => simp [wsRunsToHyphen]
  | cons a t ih =>
    cases t with
    | nil =>
      intro c hc
      by_cases h : isWsChar a
      · simp only [wsRunsToHyphen, if_pos h] at hc
        left
        simpa using hc
      · simp only [wsRunsToHyphen, if_neg h] at hc
        right
        have hca : c = a := by simpa using hc
        subst hca
        exact ⟨List.mem_cons_self _ _, by simpa using h⟩
    | cons b r =>
      intro c hc
      by_cases ha : isWsChar a
      · by_cases hb : isWsChar b
        · simp only [wsRunsToHyphen, if_pos ha, if_pos hb] at hc
          rcases ih c hc with h | ⟨hm, hws⟩
          · exact Or.inl h
          · exact Or.inr ⟨List.mem_cons_of_mem _ hm, hws⟩
        · simp only [wsRunsToHyphen, if_pos ha, if_neg hb] at hc
          rcases List.mem_cons.mp hc with rfl | hc
          · exact Or.inl rfl
          · rcases ih c hc with h | ⟨hm, hws⟩
            · exact Or.inl h
            · exact Or.inr ⟨List.mem_cons_of_mem _ hm, hws⟩
      · simp only [wsRunsToHyphen, if_neg ha] at hc
        rcases List.mem_cons.mp hc with rfl | hc
        · exact Or.inr ⟨List.mem_cons_self _ _, by simpa using ha⟩
        · rcases ih c hc with h | ⟨hm, hws⟩
          · exact Or.inl h
          · exact Or.inr ⟨List.mem_cons_of_mem _ hm, hws⟩

/-- Collapsing hyphen runs keeps the first character. -/
theorem collapse_head : ∀ (xs : List Char) (x : Char),
    (collapseHyphens (x :: xs)).head? = some x := by
  intro xs
  induction xs with
  | nil => intro x; rfl
  | cons b r ih =>
    intro x
    by_cases h : x = '-' ∧ b = '-'
    · rw [show collapseHyphens (x :: b :: r) = collapseHyphens (b :: r) by
        simp only [collapseHyphens, if_pos h], ih b, h.1, h.2]
    · simp only [collapseHyphens, if_neg h, List.head?_cons]

/-- Collapsing hyphen runs removes every adjacent hyphen pair. -/
theorem collapse_chain : ∀ l : List Char,
    List.Chain' (fun a b => ¬(a = '-' ∧ b = '-')) (collapseHyphens l) := by
  intro l
  induction l with
  | nil => simp [collapseHyphens]
  | cons x xs ih =>
    cases xs with
    | nil => simp [collapseHyphens]
    | cons b r =>
      by_cases h : x = '-' ∧ b = '-'
      · simpa only [collapseHyphens, if_pos h] using ih
      · simp only [collapseHyphens, if_neg h]
        have hh := collapse_head r b
        rcases hcb : collapseHyphens (b :: r) with _ | ⟨y, t⟩
        · simp
        · rw [hcb] at hh ih
          have hy : y = b := by simpa using hh
          subst hy
          exact List.chain'_cons.mpr ⟨fun hc => h ⟨hc.1, hc.2⟩, ih⟩

/-- Collapsing hyphen runs only keeps characters of the input. -/
theorem collapse_subset : ∀ l : List Char, collapseHyphens l ⊆ l := by
  intro l
  induction l with
  | nil => simp [collapseHyphens]
  | cons x xs ih =>
    cases xs with
    | nil => simp [collapseHyphens]
    | cons b r =>
      intro c hc
      by_cases h : x = '-' ∧ b = '-'
      · simp only [collapseHyphens, if_pos h] at hc
        exact List.mem_cons_of_mem _ (ih hc)
      · simp only [collapseHyphens, if_neg h] at hc
        rcases List.mem_cons.mp hc with rfl | hc
        · exact List.mem_cons_self _ _
        · exact List.mem_cons_of_mem _ (ih hc)

/-- In a list with no adjacent hyphens whose last character is a hyphen,
the previous character is not a hyphen. -/
theorem chain_dropLast_getLast : ∀ l : List Char,
    List.Chain' (fun a b => ¬(a = '-' ∧ b = '-')) l → l.getLast? = some '-' →
    l.dropLast.getLast? ≠ some '-' := by
  intro l
  induction l with
  | nil => intro _ h; simp at h
  | cons x xs ih =>
    cases xs with
    | nil =>
      intro _ _
      simp
    | cons y r =>
      intro hch hlast
      rw [List.getLast?_cons_cons] at hlast
      have hch' := List.chain'_cons.mp hch
      cases r with
      | nil =>
        have hy : y = '-' := by simpa using hlast
        intro hcon
        have hx : x = '-' := by simpa using hcon
        exact hch'.1 ⟨hx, hy⟩
      | cons z t =>
        intro hcon
        apply ih hch'.2 hlast
        rw [show (x :: y :: z :: t).dropLast = x :: y :: (z :: t).dropLast
          from rfl, List.getLast?_cons_cons] at hcon
        exact hcon

/-- Dropping the last element keeps the head (or empties the list). -/
theorem head?_dropLast_cases : ∀ l : List Char,
    l.dropLast.head? = none ∨ l.dropLast.head? = l.head? := by
  intro l
  cases l with
  | nil => exact Or.inl rfl
  | cons x xs =>
    cases xs with
    | nil => exact Or.inl rfl
    | cons y r => exact Or.inr rfl

/-- After collapsing and edge-stripping, the result cannot start with a
hyphen. -/
theorem stripEdge_head {l : List Char}
    (hch : List.Chain' (fun a b => ¬(a = '-' ∧ b = '-')) l) :
    (stripEdgeHyphens l).head? ≠ some '-' := by
  unfold stripEdgeHyphens
  have ha : (if l.head? = some '-' then l.tail else l).head? ≠ some '-' := by
    by_cases h : l.head? = some '-'
    · rw [if_pos h]
      cases l with
      | nil => simp at h
      | cons x xs =>
        have hx : x = '-' := by simpa using h
        subst hx
        cases xs with
        | nil => simp
        | cons y r =>
          have hr := (List.chain'_cons.mp hch).1
          intro hcon
          have hy : y = '-' := by simpa using hcon
          exact hr ⟨rfl, hy⟩
    · rw [if_neg h]
      exact h
  by_cases h2 : (if l.head? = some '-' then l.tail else l).getLast? = some '-'
  · rw [if_pos h2]
    rcases head?_dropLast_cases (if l.head? = some '-' then l.tail else l) with
      hc | hc
    · rw [hc]
      simp
    · rw [hc]
      exact ha
  · rw [if_neg h2]
    exact ha

/-- After collapsing and edge-stripping, the result cannot end with a
hyphen. -/
theorem stripEdge_last {l : List Char}
    (hch : List.Chain' (fun a b => ¬(a = '-' ∧ b = '-')) l) :
    (stripEdgeHyphens l).getLast? ≠ some '-' := by
  unfold stripEdgeHyphens
  have hcha : List.Chain' (fun a b => ¬(a = '-' ∧ b = '-'))
      (if l.head? = some '-' then l.tail else l) := by
    split
    · exact hch.tail
    · exact hch
  by_cases h2 : (if l.head? = some '-' then l.tail else l).getLast? = some '-'
  · rw [if_pos h2]
    exact chain_dropLast_getLast _ hcha h2
  · rw [if_neg h2]
    exact h2

/-- Edge-stripping only keeps characters of the input. -/
theorem stripEdge_subset (l : List Char) : stripEdgeHyphens l ⊆ l := by
  unfold stripEdgeHyphens
  intro c hc
  have hal : (if l.head? = some '-' then l.tail else l) ⊆ l := by
    split
    · exact List.tail_subset l
    · exact fun x hx => hx
  by_cases h2 : (if l.head? = some '-' then l.tail else l).getLast? = some '-'
  · rw [if_pos h2] at hc
    exact hal (List.dropLast_subset _ hc)
  · rw [if_neg h2] at hc
    exact hal hc

/-- A `dropWhile` whose predicate fails on every element is the identity. -/
theorem dropWhile_eq_self_of_no_ws {l : List Char}
    (h : ∀ c ∈ l, isWsChar c = false) : l.dropWhile isWsChar = l := by
  cases l with
  | nil => rfl
  | cons c cs =>
    rw [List.dropWhile_cons, if_neg (by simp [h c (List.mem_cons_self _ _)])]

/-- Trimming a whitespace-free list is the identity. -/
theorem trimChars_eq_self {l : List Char}
    (h : ∀ c ∈ l, isWsChar c = false) : trimChars l = l := by
  unfold trimChars
  rw [dropWhile_eq_self_of_no_ws h,
    dropWhile_eq_self_of_no_ws (fun c hc => h c (List.mem_reverse.mp hc)),
    List.reverse_reverse]

/-- The four well-formedness facts about a normalized tag: no whitespace, no
ASCII uppercase, and no leading or trailing hyphen. -/
theorem formatTag_spec (t : Tok) :
    (∀ c ∈ formatTag t, isWsChar c = false) ∧
    (∀ c ∈ formatTag t, ¬(65 ≤ c.toNat ∧ c.toNat ≤ 90)) ∧
    (formatTag t).head? ≠ some '-' ∧ (formatTag t).getLast? ≠ some '-' := by
  have hx : ∀ c ∈ wsRunsToHyphen ((t.map jsToLower).filter (fun c => !(isPunct c))),
      isWsChar c = false := by
    intro c hc
    rcases wsRuns_chars _ c hc with rfl | ⟨_, hws⟩
    · decide
    · exact hws
  have hup : ∀ c ∈ wsRunsToHyphen ((t.map jsToLower).filter (fun c => !(isPunct c))),
      ¬(65 ≤ c.toNat ∧ c.toNat ≤ 90) := by
    intro c hc
    rcases wsRuns_chars _ c hc with rfl | ⟨hm, _⟩
    · decide
    · rcases List.mem_map.mp (List.mem_filter.mp hm).1 with ⟨d, _, rfl⟩
      exact jsToLower_not_upper d
  have hsub : ∀ c ∈ stripEdgeHyphens (collapseHyphens (wsRunsToHyphen
      ((t.map jsToLower).filter (fun c => !(isPunct c))))),
      c ∈ wsRunsToHyphen ((t.map jsToLower).filter (fun c => !(isPunct c))) :=
    fun c hc => collapse_subset _ (stripEdge_subset _ hc)
  have heWs : ∀ c ∈ stripEdgeHyphens (collapseHyphens (wsRunsToHyphen
      ((t.map jsToLower).filter (fun c => !(isPunct c))))), isWsChar c = false :=
    fun c hc => hx c (hsub c hc)
  unfold formatTag
  rw [trimChars_eq_self heWs]
  exact ⟨heWs, fun c hc => hup c (hsub c hc),
    stripEdge_head (collapse_chain _), stripEdge_last (collapse_chain _)⟩

/-- Claim C10.  Every tag produced by the response parsers (the general one
and the Claude one share the `formatTagsAsObsidianTags` pipeline) is a
non-empty string with no whitespace characters, no ASCII uppercase letters,
and neither a leading nor a trailing hyphen. -/
theorem claim_C10_tags_wellformed (s : String) (ts : List String) (t : String)
    (hts : (parseGeneralResponse s true).tags = some ts ∨
      (parseClaudeResponse s).tags = some ts)
    (hmem : t ∈ ts) :
    t ≠ "" ∧ (∀ c ∈ t.data, isWsChar c = false) ∧
    (∀ c ∈ t.data, ¬(65 ≤ c.toNat ∧ c.toNat ≤ 90)) ∧
    t.data.head? ≠ some '-' ∧ t.data.getLast? ≠ some '-' := by
  have hget : ∃ c, ts = parseTags c := by
    rcases hts with h | h
    · have h' : (matchSection ("TAGS:".data) stopsTags s.data).map parseTags
          = some ts := by
        simpa [parseGeneralResponse] using h
      rcases Option.map_eq_some'.mp h' with ⟨c, _, hc⟩
      exact ⟨c, hc.symm⟩
    · have h' : (matchSection ("TAGS:".data) [("\nDIAGRAM:".data)] s.data).map
          parseTags = some ts := by
        simpa [parseClaudeResponse] using h
      rcases Option.map_eq_some'.mp h' with ⟨c, _, hc⟩
      exact ⟨c, hc.symm⟩
  rcases hget with ⟨c, rfl⟩
  unfold parseTags at hmem
  rcases List.mem_map.mp hmem with ⟨u, hu, rfl⟩
  unfold formatTagsAsObsidianTags at hu
  have hu' := List.mem_filter.mp hu
  rcases List.mem_map.mp hu'.1 with ⟨v, _, rfl⟩
  have hne : formatTag v ≠ [] := by simpa using hu'.2
  obtain ⟨p1, p2, p3, p4⟩ := formatTag_spec v
  refine ⟨?_, p1, p2, p3, p4⟩
  intro hcon
  exact hne (congrArg String.data hcon)

/-- Witness for claim C10 on a concrete parsed response. -/
theorem claim_C10_witness :
    ("foo-bar" : String) ≠ "" ∧
    ("foo-bar" : String).data.head? ≠ some '-' ∧
    ("foo-bar" : String).data.getLast? ≠ some '-' :=
  have h := claim_C10_tags_wellformed "TAGS: Foo Bar" ["foo-bar"] "foo-bar"
    (Or.inl (by decide)) (by decide)
  ⟨h.1, h.2.2.2.1, h.2.2.2.2⟩

/-- Claim C5 counterexample.  The TAGS section
`"a, b, c, d, !!!, f, g"` has 7 candidates, of which 6 are non-empty after
normalization, yet the parser returns only 4 tags: the cap to 5 is applied
before the Obsidian normalization, and the fifth capped candidate `!!!`
normalizes to empty and is dropped. -/
theorem claim_C5_counterexample :
    ((matchSection ("TAGS:".data) stopsTags
        ("TAGS: a, b, c, d, !!!, f, g").data).map
      (fun c => (strippedCands c).length)) = some 7 ∧
    (parseGeneralResponse "TAGS: a, b, c, d, !!!, f, g" true).tags =
      some ["a", "b", "c", "d"] ∧
    (["a", "b", "c", "d"] : List String).length ≠ 5 := by
  refine ⟨by decide, by decide, by decide⟩

/-- Claim C5 (amended).  With at least 5 candidates that are non-empty after
trimming and bullet/hash stripping, the parser normalizes exactly the first
5 of them, in order; the result has length exactly 5 precisely when each of
those 5 survives Obsidian normalization (in general the length can drop
below 5, see the counterexample). -/
theorem claim_C5_tag_cap (s : String) (c : List Char)
    (hm : matchSection ("TAGS:".data) stopsTags s.data = some c)
    (hlen : 5 ≤ (strippedCands c).length)
    (hsurv : ∀ t ∈ (strippedCands c).take 5, formatTag t ≠ []) :
    (parseGeneralResponse s true).tags =
      some (((strippedCands c).take 5).map (fun t => String.mk (formatTag t))) ∧
    (((strippedCands c).take 5).map (fun t => String.mk (formatTag t))).length
      = 5 := by
  constructor
  · have hfilter : (((strippedCands c).take 5).map formatTag).filter (· ≠ [])
        = ((strippedCands c).take 5).map formatTag := by
      rw [List.filter_eq_self]
      intro u hu
      rcases List.mem_map.mp hu with ⟨v, hv, rfl⟩
      simpa using hsurv v hv
    simp only [parseGeneralResponse, Bool.not_true, Bool.false_eq_true,
      if_false, hm, Option.map_some']
    unfold parseTags formatTagsAsObsidianTags
    rw [hfilter, List.map_map]
    rfl
  · rw [List.length_map, List.length_take]
    omega

/-- Witness for the amended claim C5: six plain candidates, all surviving
normalization. -/
theorem claim_C5_witness :
    (5 ≤ (strippedCands ("a, b, c, d, e, f".data)).length) ∧
    (parseGeneralResponse "TAGS: a, b, c, d, e, f" true).tags =
      some (((strippedCands ("a, b, c, d, e, f".data)).take 5).map
        (fun t => String.mk (formatTag t))) ∧
    ((((strippedCands ("a, b, c, d, e, f".data)).take 5).map
        (fun t => String.mk (formatTag t)))).length = 5 :=
  ⟨by decide,
    (claim_C5_tag_cap "TAGS: a, b, c, d, e, f" ("a, b, c, d, e, f".data)
      (by decide) (by decide) (by decide)).1,
    (claim_C5_tag_cap "TAGS: a, b, c, d, e, f" ("a, b, c, d, e, f".data)
      (by decide) (by decide) (by decide)).2⟩

end WhisperScribe
